import Mathlib

/-!
# High-precision sleep primitives: `timers.h` / `timers.cpp`

A shallow embedding of the running-average tracker `TimeDeltaRingBuffer`
(`timers.h`), of the adaptive sleep engine `adaptive_sleep` and of the
retrying `sleep_nanosleep` (`timers.cpp`).

Conventions of the embedding.

* A duration is the tick count of a `std::chrono` duration, in nanoseconds
  (the tick of `hrclock::duration` is taken to be 1 ns).  `/` and `%` of C++
  truncate towards zero and are `Int.tdiv` and `Int.tmod`.
* The tracker class is embedded with the arithmetic of its `int64_t` tick
  count: `Add64`, `Fill64`, `GetAverage64` reduce the result of every duration
  operation to the `int64_t` range with `wrap64` (two's complement).  `Add`,
  `Fill`, `GetAverage` are the same operations on exact integers; the
  `int64_t` run follows the exact one modulo `2^64` (`Sim64`) and coincides
  with it as long as the sums stay in range.  `size_` and `next_index_` stay
  between 0 and `kRingSize`, so their increments are exact.
* The engine `adaptive_sleep` runs on the exact operations: its durations are
  requests and differences of clock instants.
* The array `values_` is a map from the `int64_t` index to the stored sample.
* `hrclock::now()` is an oracle `clk : Nat → Int`: the `k`-th read of the
  clock during a call returns `clk k`.  The delay of the coarse-sleep
  primitive is visible only through the clock.
* Loops that need not terminate (`while` in `adaptive_sleep`, the spin loop,
  the retry loop of `sleep_nanosleep`) take a fuel argument and return
  `none` when it runs out.
-/

namespace timers

/-- The members of `template <class T, int64_t ringSize> class TimeDeltaRingBuffer`
(`timers.h`), with `T` a duration. -/
structure TimeDeltaRingBuffer (ringSize : Nat) where
  values_ : Int → Int
  next_index_ : Int
  size_ : Int
  rolling_sum_ : Int

namespace TimeDeltaRingBuffer

variable {ringSize : Nat}

/-- `static constexpr int64_t kRingSize = ringSize;` -/
def kRingSize (_t : TimeDeltaRingBuffer ringSize) : Int := (ringSize : Int)

/-- `TimeDeltaRingBuffer() = default;` the default member initialisers give
`next_index_ = 0`, `size_ = 0`, `rolling_sum_{}`; the array is left with
whatever the storage held, `garbage`. -/
def construct (garbage : Int → Int) : TimeDeltaRingBuffer ringSize :=
  { values_ := garbage, next_index_ := 0, size_ := 0, rolling_sum_ := 0 }

/-- `void Add(T value)`. -/
def Add (t : TimeDeltaRingBuffer ringSize) (value : Int) : TimeDeltaRingBuffer ringSize :=
  let t1 : TimeDeltaRingBuffer ringSize :=
    if t.size_ = t.kRingSize then
      { t with rolling_sum_ := t.rolling_sum_ - t.values_ t.next_index_ }
    else
      { t with size_ := t.size_ + 1 }
  { values_ := Function.update t1.values_ t1.next_index_ value
    rolling_sum_ := t1.rolling_sum_ + value
    next_index_ := Int.tmod (t1.next_index_ + 1) t1.kRingSize
    size_ := t1.size_ }

/-- `TimeDeltaRingBuffer(T initial) { Add(initial); }` -/
def constructSeeded (garbage : Int → Int) (initial : Int) : TimeDeltaRingBuffer ringSize :=
  Add (construct garbage) initial

/-- `void Clear()`. -/
def Clear (t : TimeDeltaRingBuffer ringSize) : TimeDeltaRingBuffer ringSize :=
  { t with rolling_sum_ := 0, next_index_ := 0, size_ := 0 }

/-- The loop `for (int64_t i = 0; i < kRingSize; i++) values_[i] = value;` -/
def fillLoop (value : Int) (values : Int → Int) (n : Nat) : Int → Int :=
  (List.range n).foldl (fun vs i => Function.update vs (i : Int) value) values

/-- `void Fill(T value)`. -/
def Fill (t : TimeDeltaRingBuffer ringSize) (value : Int) : TimeDeltaRingBuffer ringSize :=
  { next_index_ := 0
    size_ := t.kRingSize
    rolling_sum_ := value * t.kRingSize
    values_ := fillLoop value t.values_ ringSize }

/-- `T GetAverage() const`. -/
def GetAverage (t : TimeDeltaRingBuffer ringSize) : Int :=
  if t.size_ = 0 then 0 else Int.tdiv t.rolling_sum_ t.size_

/-- Sum of the slots `values[0] .. values[k-1]`. -/
def sumSlots (values : Int → Int) : Nat → Int
  | 0 => 0
  | k + 1 => sumSlots values k + values (k : Int)

/-- Number of valid slots: `size_` of them while the buffer is not full,
all `kRingSize` once it is. -/
def validCount (t : TimeDeltaRingBuffer ringSize) : Nat :=
  if t.size_ < t.kRingSize then t.size_.toNat else ringSize

/-- Exact sum of the valid slots. -/
def validSum (t : TimeDeltaRingBuffer ringSize) : Int :=
  sumSlots t.values_ t.validCount

/-- `Add` applied to each sample of a sequence, in order. -/
def AddAll (t : TimeDeltaRingBuffer ringSize) (samples : List Int) : TimeDeltaRingBuffer ringSize :=
  samples.foldl Add t

/-- States reachable from a constructor by `Add`, `Clear` and `Fill`. -/
inductive Reachable : TimeDeltaRingBuffer ringSize → Prop
  | construct (garbage : Int → Int) : Reachable (construct garbage)
  | constructSeeded (garbage : Int → Int) (initial : Int) :
      Reachable (constructSeeded garbage initial)
  | Add {t : TimeDeltaRingBuffer ringSize} (value : Int) : Reachable t → Reachable (t.Add value)
  | Clear {t : TimeDeltaRingBuffer ringSize} : Reachable t → Reachable t.Clear
  | Fill {t : TimeDeltaRingBuffer ringSize} (value : Int) : Reachable t → Reachable (t.Fill value)

/-- The inductive form of the tracker invariant: the bounds, the rolling sum,
and the fact that a buffer that is not yet full writes next at slot `size_`. -/
structure Inv (t : TimeDeltaRingBuffer ringSize) : Prop where
  size_nonneg : 0 ≤ t.size_
  size_le : t.size_ ≤ t.kRingSize
  index_nonneg : 0 ≤ t.next_index_
  index_lt : t.next_index_ < t.kRingSize
  index_eq : t.size_ < t.kRingSize → t.next_index_ = t.size_
  sum_eq : t.rolling_sum_ = t.validSum

/-- What the tracker holds after the samples `xs` were added to an empty
tracker: the last `min n N` samples, sample `i` in slot `i % N`. -/
structure Holds (xs : List Int) (t : TimeDeltaRingBuffer ringSize) : Prop where
  size_eq : t.size_ = ((min xs.length ringSize : Nat) : Int)
  index_eq : t.next_index_ = ((xs.length % ringSize : Nat) : Int)
  sum_eq : t.rolling_sum_ = (xs.drop (xs.length - ringSize)).sum
  slots : ∀ i : Nat, xs.length - ringSize ≤ i → i < xs.length →
    xs[i]? = some (t.values_ ((i % ringSize : Nat) : Int))

/-! ### The tracker on `int64_t` tick counts -/

/-- The value range of `int64_t`. -/
def InRange64 (x : Int) : Prop := -9223372036854775808 ≤ x ∧ x ≤ 9223372036854775807

/-- Reduction of an integer to the `int64_t` range, modulo `2^64` (two's
complement): the value an `int64_t` operation leaves when its exact result is
`x`. -/
def wrap64 (x : Int) : Int :=
  (x + 9223372036854775808) % 18446744073709551616 - 9223372036854775808

/-- `void Add(T value)` on `int64_t` tick counts:
`rolling_sum_ -= values_[next_index_]` and `rolling_sum_ += value` are
`int64_t` operations. -/
def Add64 (t : TimeDeltaRingBuffer ringSize) (value : Int) : TimeDeltaRingBuffer ringSize :=
  let t1 : TimeDeltaRingBuffer ringSize :=
    if t.size_ = t.kRingSize then
      { t with rolling_sum_ := wrap64 (t.rolling_sum_ - t.values_ t.next_index_) }
    else
      { t with size_ := t.size_ + 1 }
  { values_ := Function.update t1.values_ t1.next_index_ value
    rolling_sum_ := wrap64 (t1.rolling_sum_ + value)
    next_index_ := Int.tmod (t1.next_index_ + 1) t1.kRingSize
    size_ := t1.size_ }

/-- `TimeDeltaRingBuffer(T initial) { Add(initial); }` on `int64_t` tick counts. -/
def constructSeeded64 (garbage : Int → Int) (initial : Int) : TimeDeltaRingBuffer ringSize :=
  Add64 (construct garbage) initial

/-- `void Fill(T value)` on `int64_t` tick counts: `value * kRingSize` is an
`int64_t` product. -/
def Fill64 (t : TimeDeltaRingBuffer ringSize) (value : Int) : TimeDeltaRingBuffer ringSize :=
  { next_index_ := 0
    size_ := t.kRingSize
    rolling_sum_ := wrap64 (value * t.kRingSize)
    values_ := fillLoop value t.values_ ringSize }

/-- `T GetAverage() const` on `int64_t` tick counts. -/
def GetAverage64 (t : TimeDeltaRingBuffer ringSize) : Int :=
  if t.size_ = 0 then 0 else wrap64 (Int.tdiv t.rolling_sum_ t.size_)

/-- `Add` on `int64_t` tick counts applied to each sample of a sequence, in order. -/
def AddAll64 (t : TimeDeltaRingBuffer ringSize) (samples : List Int) :
    TimeDeltaRingBuffer ringSize :=
  samples.foldl Add64 t

/-- States reachable from a constructor by `Add`, `Clear` and `Fill`, on
`int64_t` tick counts. -/
inductive Reachable64 : TimeDeltaRingBuffer ringSize → Prop
  | construct (garbage : Int → Int) : Reachable64 (construct garbage)
  | constructSeeded (garbage : Int → Int) (initial : Int) :
      Reachable64 (constructSeeded64 garbage initial)
  | Add {t : TimeDeltaRingBuffer ringSize} (value : Int) :
      Reachable64 t → Reachable64 (t.Add64 value)
  | Clear {t : TimeDeltaRingBuffer ringSize} : Reachable64 t → Reachable64 t.Clear
  | Fill {t : TimeDeltaRingBuffer ringSize} (value : Int) :
      Reachable64 t → Reachable64 (t.Fill64 value)

/-- The `int64_t` state `t64` follows the exact state `t`: same slots, cursor
and count, and a rolling sum that is the exact one reduced to `int64_t`. -/
structure Sim64 (t64 t : TimeDeltaRingBuffer ringSize) : Prop where
  values_eq : t64.values_ = t.values_
  index_eq : t64.next_index_ = t.next_index_
  size_eq : t64.size_ = t.size_
  sum_eq : t64.rolling_sum_ = wrap64 t.rolling_sum_

/-- The largest `int64_t` value. -/
def INT64_MAX : Int := 9223372036854775807

end TimeDeltaRingBuffer

/-! ## `adaptive_sleep` (`timers.cpp`) -/

/-- `constexpr std::chrono::microseconds kMinSleep(2000);` in nanoseconds. -/
def kMinSleep : Int := 2000 * 1000

/-- `constexpr std::chrono::microseconds kBadSleepAverage(kMinSleep * 3);` in nanoseconds. -/
def kBadSleepAverage : Int := kMinSleep * 3

/-- The initial value of the function-local static
`static TimeDeltaRingBuffer<hrclock::duration, 32> min_sleep_time(kMinSleep * 2)`:
static storage is zero-initialised, then the seeding constructor runs. -/
def min_sleep_time_init : TimeDeltaRingBuffer 32 :=
  TimeDeltaRingBuffer.constructSeeded (fun _ => 0) (kMinSleep * 2)

/-- The variables of the `while` loop of `adaptive_sleep`, with the bookkeeping
of what the loop did: `reads` clock reads so far, `sleeps` calls of
`_highResSleep(kMinSleep)` so far, `observed` the samples the loop passed to
`min_sleep_time.Add`, oldest first. -/
structure LoopState where
  min_sleep_time : TimeDeltaRingBuffer 32
  rel_time : Int
  reads : Nat
  sleeps : Nat
  observed : List Int

/-- One execution of the body of the `while` loop of `adaptive_sleep`:
`start = now(); _highResSleep(kMinSleep); end = now(); observed = end - start;
min_sleep_time.Add(observed); _Rel_time -= observed;`. -/
def loop_body (clk : Nat → Int) (s : LoopState) : LoopState :=
  let start := clk s.reads
  let end_ := clk (s.reads + 1)
  let observed := end_ - start
  { min_sleep_time := s.min_sleep_time.Add observed
    rel_time := s.rel_time - observed
    reads := s.reads + 2
    sleeps := s.sleeps + 1
    observed := s.observed ++ [observed] }

/-- The loop `while (_Rel_time > min_sleep_time.GetAverage()) { ... }`. -/
def coarse_loop (clk : Nat → Int) : Nat → LoopState → Option LoopState
  | 0, _ => none
  | fuel + 1, s =>
    if s.rel_time > s.min_sleep_time.GetAverage then
      coarse_loop clk fuel (loop_body clk s)
    else
      some s

/-- The divergence repair
`if (min_sleep_time.GetAverage() >= kBadSleepAverage) { Clear(); Add(kMinSleep * 2); }`. -/
def repair (t : TimeDeltaRingBuffer 32) : TimeDeltaRingBuffer 32 :=
  if t.GetAverage ≥ kBadSleepAverage then t.Clear.Add (kMinSleep * 2) else t

/-- The spin loop `while (hrclock::now() - start < _Rel_time) cpu_yield();`.
`reads` is the index of the next clock read, `yields` the number of
`cpu_yield()` calls so far; the result is the number of clock reads of the
whole call and the number of yields. -/
def spin_loop (clk : Nat → Int) (start rel_time : Int) : Nat → Nat → Nat → Option (Nat × Nat)
  | 0, _, _ => none
  | fuel + 1, reads, yields =>
    if clk reads - start < rel_time then
      spin_loop clk start rel_time fuel (reads + 1) (yields + 1)
    else
      some (reads + 1, yields)

/-- What one call of `adaptive_sleep` did: the static tracker after the call,
the number of coarse sleeps, the samples added by the loop, the `_Rel_time`
left for the spin phase, the number of `cpu_yield()` calls and the number of
clock reads. -/
structure SleepOutcome where
  min_sleep_time : TimeDeltaRingBuffer 32
  sleeps : Nat
  observed : List Int
  remaining : Int
  yields : Nat
  reads : Nat

/-- `void adaptive_sleep(std::chrono::nanoseconds _Rel_time, sleep_func_t _highResSleep)`,
with the state of the static `min_sleep_time` at entry passed in. -/
def adaptive_sleep (clk : Nat → Int) (fuel : Nat) (min_sleep_time : TimeDeltaRingBuffer 32)
    (_Rel_time : Int) : Option SleepOutcome :=
  match coarse_loop clk fuel
      { min_sleep_time := min_sleep_time, rel_time := _Rel_time, reads := 0, sleeps := 0,
        observed := [] } with
  | none => none
  | some s =>
    let tracker := repair s.min_sleep_time
    let start := clk s.reads
    match spin_loop clk start s.rel_time fuel (s.reads + 1) 0 with
    | none => none
    | some (reads, yields) =>
      some
        { min_sleep_time := tracker
          sleeps := s.sleeps
          observed := s.observed
          remaining := s.rel_time
          yields := yields
          reads := reads }

/-- The instant of the first clock read of a call. -/
def firstRead (clk : Nat → Int) : Int := clk 0

/-- The instant of the last clock read of a call that made `r.reads` reads. -/
def lastRead (clk : Nat → Int) (r : SleepOutcome) : Int := clk (r.reads - 1)

/-- Tracker states at the entry of a call of `adaptive_sleep` in a running
program: the static initial value, or the tracker left by an earlier call. -/
inductive CallReachable : TimeDeltaRingBuffer 32 → Prop
  | init : CallReachable min_sleep_time_init
  | call {t : TimeDeltaRingBuffer 32} (clk : Nat → Int) (fuel : Nat) (_Rel_time : Int)
      (r : SleepOutcome) :
      CallReachable t → adaptive_sleep clk fuel t _Rel_time = some r →
      CallReachable r.min_sleep_time

/-- The storage of `min_sleep_time` in `adaptive_sleep`.  The declaration is
`static TimeDeltaRingBuffer<...> min_sleep_time(...)`, without `thread_local`:
one object for the whole process, `none` until the first call of
`adaptive_sleep` (on whatever thread) initialises it. -/
structure Process where
  min_sleep_time : Option (TimeDeltaRingBuffer 32)

/-- The tracker a call of `adaptive_sleep` works on: the static object,
initialised on the first call. -/
def Process.tracker (p : Process) : TimeDeltaRingBuffer 32 :=
  p.min_sleep_time.getD min_sleep_time_init

/-- `deadline_sleep::_sleep_impl(_Rel_time)` called on thread `thread`:
`adaptive_sleep(_Rel_time, ...)` on the process-wide static tracker.  The
calling thread plays no part in which tracker is used. -/
def deadline_sleep (_thread : Nat) (clk : Nat → Int) (fuel : Nat) (p : Process)
    (_Rel_time : Int) : Option (Process × SleepOutcome) :=
  match adaptive_sleep clk fuel p.tracker _Rel_time with
  | none => none
  | some r => some ({ min_sleep_time := some r.min_sleep_time }, r)

/-- A clock that advances by 3 ms between consecutive reads. -/
def clock3ms (k : Nat) : Int := 3000000 * (k : Int)

/-- Two calls in a row in one process: `deadline_sleep(T1)` on thread 1, then
`deadline_sleep(T2)` on thread 2, which has not called it before. -/
def two_threads (clk : Nat → Int) (fuel : Nat) (T1 T2 : Int) : Option (Process × SleepOutcome) :=
  match deadline_sleep 1 clk fuel { min_sleep_time := none } T1 with
  | none => none
  | some (p, _) => deadline_sleep 2 clk fuel p T2

/-! ## `sleep_nanosleep` (`timers.cpp`) -/

/-- The fields of `struct timespec`. -/
structure timespec where
  tv_sec : Int
  tv_nsec : Int
  deriving DecidableEq

/-- `std::chrono::nanoseconds::period::den`. -/
def period_den : Int := 1000000000

/-- The `do { rv = clock_nanosleep(..., &ts, &remain); ts = remain; } while (rv != 0);`
loop.  `os k ts` is what the `k`-th call of the OS primitive, asked for `ts`,
returns: the code `rv` and the content of `remain`.  The result is the list
of the requests made, in order. -/
def sleep_nanosleep_loop (os : Nat → timespec → Int × timespec) :
    Nat → Nat → timespec → List timespec → Option (List timespec)
  | 0, _, _, _ => none
  | fuel + 1, k, ts, requests =>
    let rv := (os k ts).1
    let remain := (os k ts).2
    let ts1 := remain
    if rv ≠ 0 then
      sleep_nanosleep_loop os fuel (k + 1) ts1 (requests ++ [ts])
    else
      some (requests ++ [ts])

/-- The first request of `sleep_nanosleep(_Rel_time)`. -/
def first_timespec (_Rel_time : Int) : timespec :=
  { tv_sec := Int.tdiv _Rel_time period_den, tv_nsec := Int.tmod _Rel_time period_den }

/-- `static void sleep_nanosleep(std::chrono::nanoseconds _Rel_time)` (Linux
and macOS variants differ only in the OS primitive called). -/
def sleep_nanosleep (os : Nat → timespec → Int × timespec) (fuel : Nat) (_Rel_time : Int) :
    Option (List timespec) :=
  sleep_nanosleep_loop os fuel 0 (first_timespec _Rel_time) []

/-- An OS whose first sleep call is interrupted with one second left and
whose later calls complete. -/
def interrupted_once (k : Nat) (_ts : timespec) : Int × timespec :=
  if k = 0 then (4, { tv_sec := 1, tv_nsec := 0 }) else (0, { tv_sec := 0, tv_nsec := 0 })

/-- The request of the `k`-th call when every earlier call was interrupted:
the first request, then each time the remainder the previous call reported. -/
def requestSeq (os : Nat → timespec → Int × timespec) (ts0 : timespec) : Nat → timespec
  | 0 => ts0
  | k + 1 => (os k (requestSeq os ts0 k)).2

/-! ## Lemmas on the tracker -/

namespace TimeDeltaRingBuffer

variable {ringSize : Nat}

theorem tmod_succ_index (i n : Int) (h0 : 0 ≤ i) (h : i < n) :
    Int.tmod (i + 1) n = if i + 1 = n then 0 else i + 1 := by
  rw [Int.tmod_eq_emod (by omega) (by omega)]
  split
  · next h1 => rw [h1]; exact Int.emod_self
  · next h1 => exact Int.emod_eq_of_lt (by omega) (by omega)

theorem sumSlots_update_ge (f : Int → Int) (i v : Int) (k : Nat) (h : (k : Int) ≤ i) :
    sumSlots (Function.update f i v) k = sumSlots f k := by
  induction k with
  | zero => rfl
  | succ k ih =>
    have hne : ((k : Nat) : Int) ≠ i := by push_cast at h; omega
    simp only [sumSlots, Function.update_noteq hne]
    rw [ih (by push_cast at h; omega)]

theorem sumSlots_update_lt (f : Int → Int) (i : Nat) (v : Int) (k : Nat) (h : i < k) :
    sumSlots (Function.update f (i : Int) v) k = sumSlots f k - f (i : Int) + v := by
  induction k with
  | zero => omega
  | succ k ih =>
    by_cases hik : i = k
    · subst hik
      simp only [sumSlots, Function.update_same]
      rw [sumSlots_update_ge f (i : Int) v i (le_refl _)]
      ring
    · have hne : ((k : Nat) : Int) ≠ (i : Int) := by omega
      simp only [sumSlots, Function.update_noteq hne]
      rw [ih (by omega)]
      ring

theorem sumSlots_nonneg (f : Int → Int) (k : Nat)
    (h : ∀ i : Nat, i < k → 0 ≤ f (i : Int)) : 0 ≤ sumSlots f k := by
  induction k with
  | zero => exact le_refl _
  | succ k ih =>
    have h1 := ih (fun i hi => h i (by omega))
    have h2 := h k (by omega)
    simp only [sumSlots]
    omega

theorem fillLoop_apply (value : Int) (values : Int → Int) (n : Nat) (j : Int) :
    fillLoop value values n j = if 0 ≤ j ∧ j < (n : Int) then value else values j := by
  induction n with
  | zero =>
    simp only [fillLoop, List.range_zero, List.foldl_nil]
    split_ifs with h
    · push_cast at h; omega
    · rfl
  | succ n ih =>
    have hstep : fillLoop value values (n + 1)
        = Function.update (fillLoop value values n) (n : Int) value := by
      simp [fillLoop, List.range_succ, List.foldl_append]
    rw [hstep]
    by_cases hj : j = (n : Int)
    · subst hj
      rw [Function.update_same]
      split_ifs with h
      · rfl
      · push_cast at h; omega
    · rw [Function.update_noteq hj, ih]
      push_cast
      split_ifs <;> first | rfl | omega

theorem sumSlots_const (f : Int → Int) (v : Int) (k : Nat)
    (h : ∀ i : Nat, i < k → f (i : Int) = v) : sumSlots f k = v * (k : Int) := by
  induction k with
  | zero => simp [sumSlots]
  | succ k ih =>
    simp only [sumSlots]
    rw [ih (fun i hi => h i (by omega)), h k (by omega)]
    push_cast
    ring

theorem inv_construct (garbage : Int → Int) (hN : 0 < ringSize) :
    Inv (construct garbage : TimeDeltaRingBuffer ringSize) := by
  have hpos : (0 : Int) < (ringSize : Int) := by exact_mod_cast hN
  refine ⟨le_refl _, ?_, le_refl _, ?_, ?_, ?_⟩
  · simp [construct, kRingSize]
  · simpa [construct, kRingSize] using hN
  · intro _; rfl
  · simp [construct, validSum, validCount, kRingSize, hpos, sumSlots]

theorem inv_Clear (t : TimeDeltaRingBuffer ringSize) (hN : 0 < ringSize) : Inv t.Clear := by
  have hpos : (0 : Int) < (ringSize : Int) := by exact_mod_cast hN
  refine ⟨le_refl _, ?_, le_refl _, ?_, ?_, ?_⟩
  · simp [Clear, kRingSize]
  · simpa [Clear, kRingSize] using hN
  · intro _; rfl
  · simp [Clear, validSum, validCount, kRingSize, hpos, sumSlots]

theorem inv_Fill (t : TimeDeltaRingBuffer ringSize) (value : Int) (hN : 0 < ringSize) :
    Inv (t.Fill value) := by
  have hpos : (0 : Int) < (ringSize : Int) := by exact_mod_cast hN
  refine ⟨?_, ?_, le_refl _, ?_, ?_, ?_⟩
  · simp [Fill, kRingSize]
  · simp [Fill, kRingSize]
  · simpa [Fill, kRingSize] using hN
  · intro h; simp [Fill, kRingSize] at h
  · simp only [Fill, validSum, validCount, kRingSize, lt_self_iff_false, if_false]
    rw [sumSlots_const _ value ringSize]
    intro i hi
    rw [fillLoop_apply]
    have : (0 : Int) ≤ (i : Int) ∧ (i : Int) < (ringSize : Int) := by
      constructor <;> omega
    simp [this]

theorem inv_Add (t : TimeDeltaRingBuffer ringSize) (value : Int) (h : Inv t) :
    Inv (t.Add value) := by
  obtain ⟨h1, h2, h3, h4, h5, h6⟩ := h
  simp only [kRingSize] at h2 h4 h5
  by_cases hfull : t.size_ = (ringSize : Int)
  · -- the buffer is full: the oldest sample is replaced
    have hidx := tmod_succ_index t.next_index_ ringSize h3 h4
    obtain ⟨i, hi⟩ := Int.eq_ofNat_of_zero_le h3
    refine ⟨?_, ?_, ?_, ?_, ?_, ?_⟩
    · simp [Add, kRingSize, hfull]
    · simp [Add, kRingSize, hfull]
    · simp only [Add, kRingSize, hfull, if_true]; rw [hidx]; split <;> omega
    · simp only [Add, kRingSize, hfull, if_true]; rw [hidx]; split <;> omega
    · intro hlt; simp [Add, kRingSize, hfull] at hlt
    · simp only [validSum, validCount, kRingSize, hfull, lt_self_iff_false, if_false] at h6
      simp only [Add, validSum, validCount, kRingSize, hfull, if_true, lt_self_iff_false,
        if_false]
      rw [hi, sumSlots_update_lt _ i value ringSize (by omega), h6]
  · -- the buffer is not full: the sample goes to slot `size_`
    have hlt : t.size_ < (ringSize : Int) := by omega
    have hnext := h5 hlt
    have hidx := tmod_succ_index t.size_ ringSize h1 hlt
    obtain ⟨k, hk⟩ := Int.eq_ofNat_of_zero_le h1
    refine ⟨?_, ?_, ?_, ?_, ?_, ?_⟩
    · simp only [Add, kRingSize, hfull, if_false]; omega
    · simp only [Add, kRingSize, hfull, if_false]; omega
    · simp only [Add, kRingSize, hfull, if_false]; rw [hnext, hidx]; split <;> omega
    · simp only [Add, kRingSize, hfull, if_false]; rw [hnext, hidx]; split <;> omega
    · intro hlt2
      simp only [Add, kRingSize, hfull, if_false] at hlt2 ⊢
      rw [hnext, hidx]; split <;> omega
    · simp only [validSum, validCount, kRingSize, hlt, if_true] at h6
      have hcount : (if t.size_ + 1 < (ringSize : Int) then (t.size_ + 1).toNat else ringSize)
          = k + 1 := by
        split <;> omega
      simp only [Add, validSum, validCount, kRingSize, hfull, if_false]
      rw [hcount, hnext, h6, hk]
      simp only [sumSlots, Function.update_same, Int.toNat_ofNat]
      rw [sumSlots_update_ge _ _ _ k (le_refl _)]

theorem inv_of_reachable (hN : 0 < ringSize) (t : TimeDeltaRingBuffer ringSize)
    (h : Reachable t) : Inv t := by
  induction h with
  | construct garbage => exact inv_construct garbage hN
  | constructSeeded garbage initial => exact inv_Add _ _ (inv_construct garbage hN)
  | Add value _ ih => exact inv_Add _ _ ih
  | Clear _ _ => exact inv_Clear _ hN
  | Fill value _ _ => exact inv_Fill _ _ hN

theorem succ_mod_ring (n N : Nat) (hN : 0 < N) :
    (n + 1) % N = if n % N + 1 = N then 0 else n % N + 1 := by
  have hlt := Nat.mod_lt n hN
  split
  · next h =>
    have : n + 1 = N * (n / N + 1) := by
      have := Nat.div_add_mod n N
      rw [Nat.mul_add, Nat.mul_one]; omega
    rw [this]; exact Nat.mul_mod_right _ _
  · next h =>
    have : n + 1 = N * (n / N) + (n % N + 1) := by
      have := Nat.div_add_mod n N
      omega
    rw [this, Nat.mul_add_mod]
    exact Nat.mod_eq_of_lt (by omega)

theorem mod_ne_of_close (i n N : Nat) (h1 : i < n) (h2 : n < i + N) : i % N ≠ n % N := by
  intro h
  have := Nat.sub_mod_eq_zero_of_mod_eq h.symm
  have hd : N ∣ n - i := Nat.dvd_of_mod_eq_zero this
  have := Nat.le_of_dvd (by omega) hd
  omega

theorem holds_Add (hN : 0 < ringSize) (xs : List Int) (x : Int)
    (t : TimeDeltaRingBuffer ringSize) (h : Holds xs t) : Holds (xs ++ [x]) (t.Add x) := by
  obtain ⟨hsize, hidx, hsum, hslots⟩ := h
  have hmodlt := Nat.mod_lt xs.length hN
  have hnext : Int.tmod (t.next_index_ + 1) (ringSize : Int)
      = (((xs.length + 1) % ringSize : Nat) : Int) := by
    rw [tmod_succ_index _ _ (by omega) (by omega), succ_mod_ring _ _ hN, hidx]
    split_ifs with h1 h2 h2
    · rfl
    · omega
    · omega
    · push_cast; rfl
  have hvalues : ∀ v : Int → Int, v = Function.update t.values_ t.next_index_ x →
      ∀ i : Nat, (xs ++ [x]).length - ringSize ≤ i → i < (xs ++ [x]).length →
        (xs ++ [x])[i]? = some (v ((i % ringSize : Nat) : Int)) := by
    intro v hv i hlo hhi
    simp only [List.length_append, List.length_singleton] at hlo hhi
    subst hv
    by_cases hin : i = xs.length
    · subst hin
      rw [List.getElem?_concat_length, hidx, Function.update_same]
    · have hlt : i < xs.length := by omega
      have hne := mod_ne_of_close i xs.length ringSize hlt (by omega)
      have hne2 : ((i % ringSize : Nat) : Int) ≠ t.next_index_ := by
        rw [hidx]; omega
      rw [List.getElem?_append_left hlt, Function.update_noteq hne2]
      exact hslots i (by omega) hlt
  by_cases hfull : t.size_ = (ringSize : Int)
  · have hge : ringSize ≤ xs.length := by
      rw [hsize] at hfull
      have : min xs.length ringSize = ringSize := by exact_mod_cast hfull
      omega
    refine ⟨?_, ?_, ?_, ?_⟩
    · simp only [Add, kRingSize, hfull, if_true, List.length_append, List.length_singleton]
      have : min (xs.length + 1) ringSize = ringSize := by omega
      rw [this]
    · simp only [Add, kRingSize, hfull, if_true, List.length_append, List.length_singleton]
      exact hnext
    · simp only [Add, kRingSize, hfull, if_true, List.length_append, List.length_singleton]
      have hold := hslots (xs.length - ringSize) (le_refl _) (by omega)
      rw [← Nat.mod_eq_sub_mod hge, ← hidx] at hold
      have hlt : xs.length - ringSize < xs.length := by omega
      rw [List.getElem?_eq_getElem hlt] at hold
      have hold2 : xs[xs.length - ringSize] = t.values_ t.next_index_ := by
        simpa using hold
      have hidx2 : xs.length + 1 - ringSize = xs.length - ringSize + 1 := by omega
      rw [hsum, List.drop_eq_getElem_cons hlt, hidx2,
        List.drop_append_of_le_length (by omega), List.sum_append, List.sum_cons, hold2]
      simp
    · exact hvalues _ (by simp [Add, kRingSize, hfull])
  · have hlt : xs.length < ringSize := by
      rw [hsize] at hfull
      by_contra hcon
      have : min xs.length ringSize = ringSize := by omega
      rw [this] at hfull
      exact hfull rfl
    have hmin : min xs.length ringSize = xs.length := by omega
    refine ⟨?_, ?_, ?_, ?_⟩
    · simp only [Add, kRingSize, hfull, if_false, List.length_append, List.length_singleton]
      rw [hsize, hmin]
      have : min (xs.length + 1) ringSize = xs.length + 1 := by omega
      rw [this]
      push_cast; rfl
    · simp only [Add, kRingSize, hfull, if_false, List.length_append, List.length_singleton]
      exact hnext
    · simp only [Add, kRingSize, hfull, if_false, List.length_append, List.length_singleton]
      have h0 : xs.length - ringSize = 0 := by omega
      have h1 : xs.length + 1 - ringSize = 0 := by omega
      rw [hsum, h0, h1]
      simp
    · exact hvalues _ (by simp [Add, kRingSize, hfull])

theorem holds_AddAll (hN : 0 < ringSize) (t0 : TimeDeltaRingBuffer ringSize)
    (hsize : t0.size_ = 0) (hidx : t0.next_index_ = 0) (hsum : t0.rolling_sum_ = 0)
    (xs : List Int) : Holds xs (AddAll t0 xs) := by
  induction xs using List.reverseRecOn with
  | nil =>
    refine ⟨?_, ?_, ?_, ?_⟩
    · simpa [AddAll] using hsize
    · simpa [AddAll] using hidx
    · simpa [AddAll] using hsum
    · intro i _ hi; simp at hi
  | append_singleton xs x ih =>
    have : AddAll t0 (xs ++ [x]) = (AddAll t0 xs).Add x := by
      simp [AddAll, List.foldl_append]
    rw [this]
    exact holds_Add hN xs x _ ih

theorem average_of_holds (xs : List Int) (t : TimeDeltaRingBuffer ringSize) (h : Holds xs t) :
    t.GetAverage = if xs.length = 0 then 0
      else Int.tdiv (xs.drop (xs.length - min xs.length ringSize)).sum
        ((min xs.length ringSize : Nat) : Int) := by
  obtain ⟨hsize, _, hsum, _⟩ := h
  have hdrop : xs.length - min xs.length ringSize = xs.length - ringSize := by omega
  by_cases hn : xs.length = 0
  · have : t.size_ = 0 := by rw [hsize, hn]; simp
    simp [GetAverage, this, hn]
  · by_cases hz : ringSize = 0
    · have : t.size_ = 0 := by rw [hsize, hz]; simp
      simp [GetAverage, this, hn, hz]
    · have : t.size_ ≠ 0 := by rw [hsize]; omega
      simp only [GetAverage, this, if_false, hn]
      rw [hdrop, hsum, hsize]

/-! ### The `int64_t` run and the exact run -/

theorem wrap64_of_inRange (x : Int) (h : InRange64 x) : wrap64 x = x := by
  unfold InRange64 at h
  unfold wrap64
  omega

theorem inRange_wrap64 (x : Int) : InRange64 (wrap64 x) := by
  unfold InRange64 wrap64
  omega

theorem wrap64_add (a b : Int) : wrap64 (wrap64 a + b) = wrap64 (a + b) := by
  unfold wrap64
  omega

theorem wrap64_sub (a b : Int) : wrap64 (wrap64 a - b) = wrap64 (a - b) := by
  unfold wrap64
  omega

theorem inRange_tdiv (a b : Int) (ha : InRange64 a) (hb : 0 < b) :
    InRange64 (Int.tdiv a b) := by
  unfold InRange64 at *
  rcases le_or_lt 0 a with h | h
  · rw [Int.tdiv_eq_ediv h (by omega)]
    have h1 := Int.ediv_le_self b h
    have h2 := Int.ediv_nonneg h (le_of_lt hb)
    omega
  · have e : a = -(-a) := by omega
    rw [e, Int.neg_tdiv, Int.tdiv_eq_ediv (by omega) (by omega)]
    have h1 := Int.ediv_le_self b (show 0 ≤ -a by omega)
    have h2 := Int.ediv_nonneg (show 0 ≤ -a by omega) (le_of_lt hb)
    omega

theorem sim_of_sum_zero (t : TimeDeltaRingBuffer ringSize) (h : t.rolling_sum_ = 0) :
    Sim64 t t :=
  ⟨rfl, rfl, rfl, by rw [h]; decide⟩

theorem sim_Add (t64 t : TimeDeltaRingBuffer ringSize) (value : Int) (h : Sim64 t64 t) :
    Sim64 (t64.Add64 value) (t.Add value) := by
  obtain ⟨hv, hi, hs, hsum⟩ := h
  by_cases hfull : t.size_ = (ringSize : Int)
  · have hfull64 : t64.size_ = (ringSize : Int) := by rw [hs]; exact hfull
    refine ⟨?_, ?_, ?_, ?_⟩
    · simp [Add64, TimeDeltaRingBuffer.Add, kRingSize, hfull, hfull64, hv, hi]
    · simp [Add64, TimeDeltaRingBuffer.Add, kRingSize, hfull, hfull64, hi]
    · simp [Add64, TimeDeltaRingBuffer.Add, kRingSize, hfull, hfull64]
    · simp only [Add64, TimeDeltaRingBuffer.Add, kRingSize, hfull, hfull64, if_true]
      rw [hsum, hv, hi, wrap64_sub, wrap64_add]
  · have hfull64 : ¬ t64.size_ = (ringSize : Int) := by rw [hs]; exact hfull
    refine ⟨?_, ?_, ?_, ?_⟩
    · simp [Add64, TimeDeltaRingBuffer.Add, kRingSize, hfull, hfull64, hv, hi]
    · simp [Add64, TimeDeltaRingBuffer.Add, kRingSize, hfull, hfull64, hi]
    · simp [Add64, TimeDeltaRingBuffer.Add, kRingSize, hfull, hfull64, hs]
    · simp only [Add64, TimeDeltaRingBuffer.Add, kRingSize, hfull, hfull64, if_false]
      rw [hsum, wrap64_add]

theorem sim_Clear (t64 t : TimeDeltaRingBuffer ringSize) (h : Sim64 t64 t) :
    Sim64 t64.Clear t.Clear :=
  ⟨h.values_eq, rfl, rfl, by simp only [Clear]; decide⟩

theorem sim_Fill (t64 t : TimeDeltaRingBuffer ringSize) (value : Int) (h : Sim64 t64 t) :
    Sim64 (t64.Fill64 value) (t.Fill value) :=
  ⟨by simp only [Fill64, Fill]; rw [h.values_eq], rfl, rfl, rfl⟩

theorem sim_AddAll (xs : List Int) (t64 t : TimeDeltaRingBuffer ringSize) (h : Sim64 t64 t) :
    Sim64 (AddAll64 t64 xs) (AddAll t xs) := by
  induction xs generalizing t64 t with
  | nil => exact h
  | cons x xs ih => exact ih _ _ (sim_Add t64 t x h)

theorem sim_of_reachable64 (hN : 0 < ringSize) (t64 : TimeDeltaRingBuffer ringSize)
    (h : Reachable64 t64) : ∃ t : TimeDeltaRingBuffer ringSize, Inv t ∧ Sim64 t64 t := by
  induction h with
  | construct garbage =>
    exact ⟨_, inv_construct garbage hN, sim_of_sum_zero _ rfl⟩
  | constructSeeded garbage initial =>
    exact ⟨_, inv_Add _ initial (inv_construct garbage hN),
      sim_Add _ _ initial (sim_of_sum_zero _ rfl)⟩
  | Add value _ ih =>
    obtain ⟨t, h1, h2⟩ := ih
    exact ⟨_, inv_Add t value h1, sim_Add _ _ value h2⟩
  | Clear _ ih =>
    obtain ⟨t, _, h2⟩ := ih
    exact ⟨_, inv_Clear t hN, sim_Clear _ _ h2⟩
  | Fill value _ ih =>
    obtain ⟨t, _, h2⟩ := ih
    exact ⟨_, inv_Fill t value hN, sim_Fill _ _ value h2⟩

/-- The average, on `int64_t` tick counts, after the samples `xs` were added to
an empty tracker. -/
theorem average64_of_empty (hN : 0 < ringSize) (t0 : TimeDeltaRingBuffer ringSize)
    (hsize : t0.size_ = 0) (hidx : t0.next_index_ = 0) (hsum : t0.rolling_sum_ = 0)
    (xs : List Int) :
    (AddAll64 t0 xs).GetAverage64
      = if xs.length = 0 then 0
        else wrap64 (Int.tdiv
          (wrap64 (xs.drop (xs.length - min xs.length ringSize)).sum)
          ((min xs.length ringSize : Nat) : Int)) := by
  have hsim := sim_AddAll xs t0 t0 (sim_of_sum_zero t0 hsum)
  obtain ⟨hs, _, hS, _⟩ := holds_AddAll hN t0 hsize hidx hsum xs
  have hdrop : xs.length - min xs.length ringSize = xs.length - ringSize := by omega
  unfold GetAverage64
  rw [hsim.size_eq, hsim.sum_eq, hs, hS, hdrop]
  by_cases hn : xs.length = 0
  · simp [hn]
  · have : ((min xs.length ringSize : Nat) : Int) ≠ 0 := by omega
    simp only [this, if_false, hn]

/-- C1 as stated fails on `int64_t` tick counts: capacity 2, the samples
`INT64_MAX`, `INT64_MAX` added to a default-constructed tracker.  The rolling
sum wraps to -2 and `GetAverage()` returns -1, while the integer quotient of
the sum of the two samples by 2 is `INT64_MAX`. -/
theorem average_overflow_counterexample :
    (AddAll64 (construct (fun _ => 0) : TimeDeltaRingBuffer 2)
        [INT64_MAX, INT64_MAX]).GetAverage64 = -1 ∧
    Int.tdiv ([INT64_MAX, INT64_MAX].drop
        ([INT64_MAX, INT64_MAX].length - min [INT64_MAX, INT64_MAX].length 2)).sum
      ((min [INT64_MAX, INT64_MAX].length 2 : Nat) : Int) = INT64_MAX ∧
    (-1 : Int) ≠ INT64_MAX := by
  refine ⟨by decide, by decide, by decide⟩

/-- C1, amended: a tracker of capacity `ringSize` that starts empty
(default-constructed, or just cleared from any state) and receives the samples
`xs` by `Add`, in order, has `GetAverage()` equal to zero when there is no
sample; otherwise, provided the sum of the last `min xs.length ringSize`
samples lies in the `int64_t` range, it is exactly the truncating integer
quotient of that sum by `min xs.length ringSize`, whether the sequence is
shorter than, as long as, or longer than the capacity.  Without the proviso
the rolling sum is that sum reduced modulo `2^64`. -/
theorem average64_after_adds (ringSize : Nat) (hN : 1 < ringSize) (xs : List Int)
    (t0 : TimeDeltaRingBuffer ringSize)
    (hstart : (∃ garbage : Int → Int, t0 = construct garbage) ∨
      (∃ t : TimeDeltaRingBuffer ringSize, t0 = t.Clear)) :
    (xs.length = 0 → (AddAll64 t0 xs).GetAverage64 = 0) ∧
    (xs.length ≠ 0 →
      InRange64 (xs.drop (xs.length - min xs.length ringSize)).sum →
      (AddAll64 t0 xs).GetAverage64
        = Int.tdiv (xs.drop (xs.length - min xs.length ringSize)).sum
            ((min xs.length ringSize : Nat) : Int)) ∧
    (xs.length ≠ 0 →
      (AddAll64 t0 xs).GetAverage64
        = wrap64 (Int.tdiv (wrap64 (xs.drop (xs.length - min xs.length ringSize)).sum)
            ((min xs.length ringSize : Nat) : Int))) := by
  have hpos : 0 < ringSize := by omega
  have h0 : t0.size_ = 0 ∧ t0.next_index_ = 0 ∧ t0.rolling_sum_ = 0 := by
    rcases hstart with ⟨g, rfl⟩ | ⟨t, rfl⟩
    · exact ⟨rfl, rfl, rfl⟩
    · exact ⟨rfl, rfl, rfl⟩
  have havg := average64_of_empty hpos t0 h0.1 h0.2.1 h0.2.2 xs
  refine ⟨?_, ?_, ?_⟩
  · intro hn
    rw [havg, if_pos hn]
  · intro hn hr
    rw [havg, if_neg hn, wrap64_of_inRange _ hr]
    exact wrap64_of_inRange _ (inRange_tdiv _ _ hr (by omega))
  · intro hn
    rw [havg, if_neg hn]

/-- Instance of amended C1 with wrap-around of the ring: capacity 2, the
samples 1, 2, 6, 9 added to a cleared tracker that held other data; the
average is (6 + 9) / 2 = 7. -/
theorem average64_after_adds_witness :
    1 < 2 ∧ [1, 2, 6, (9 : Int)].length ≠ 0 ∧
    InRange64 ([1, 2, 6, (9 : Int)].drop
      ([1, 2, 6, (9 : Int)].length - min [1, 2, 6, (9 : Int)].length 2)).sum ∧
    (AddAll64 (Clear (AddAll64 (construct (fun _ => 5) : TimeDeltaRingBuffer 2) [7, 8, 9]))
        [1, 2, 6, 9]).GetAverage64 = 7 :=
  ⟨by decide, by decide, by unfold InRange64; decide, by
    rw [(average64_after_adds 2 (by decide) [1, 2, 6, 9] _ (Or.inr ⟨_, rfl⟩)).2.1
      (by decide) (by unfold InRange64; decide)]
    decide⟩

/-- C2 as stated fails on `int64_t` tick counts: capacity 2, default
constructor, then `Add(INT64_MAX)` twice.  The state is reachable, the buffer
is full, `rolling_sum_` is -2 and the sum of the two valid slots is
`2 * INT64_MAX`. -/
theorem rolling_sum_overflow_counterexample :
    Reachable64 (((construct (fun _ => 0) : TimeDeltaRingBuffer 2).Add64 INT64_MAX).Add64
      INT64_MAX) ∧
    (((construct (fun _ => 0) : TimeDeltaRingBuffer 2).Add64 INT64_MAX).Add64
      INT64_MAX).size_ = 2 ∧
    (((construct (fun _ => 0) : TimeDeltaRingBuffer 2).Add64 INT64_MAX).Add64
      INT64_MAX).rolling_sum_ = -2 ∧
    sumSlots (((construct (fun _ => 0) : TimeDeltaRingBuffer 2).Add64 INT64_MAX).Add64
      INT64_MAX).values_ 2 = 2 * INT64_MAX ∧
    (-2 : Int) ≠ 2 * INT64_MAX := by
  refine ⟨Reachable64.Add _ (Reachable64.Add _ (Reachable64.construct _)),
    by decide, by decide, by decide, by decide⟩

/-- C2, amended: in every state reachable from a constructor (default or
seeded) by `Add`, `Clear` and `Fill`, `0 ≤ size_ ≤ kRingSize`,
`0 ≤ next_index_ < kRingSize`, and `rolling_sum_` is the sum of the valid slots
(slots `0 .. size_-1` while `size_ < kRingSize`, all `kRingSize` slots once the
buffer is full) reduced modulo `2^64` to the `int64_t` range: the exact sum
whenever that sum lies in the `int64_t` range. -/
theorem reachable64_invariant (ringSize : Nat) (hN : 1 < ringSize)
    (t : TimeDeltaRingBuffer ringSize) (h : Reachable64 t) :
    0 ≤ t.size_ ∧ t.size_ ≤ t.kRingSize ∧
    0 ≤ t.next_index_ ∧ t.next_index_ < t.kRingSize ∧
    t.rolling_sum_ = wrap64
      (if t.size_ < t.kRingSize then sumSlots t.values_ t.size_.toNat
       else sumSlots t.values_ ringSize) ∧
    (InRange64
        (if t.size_ < t.kRingSize then sumSlots t.values_ t.size_.toNat
         else sumSlots t.values_ ringSize) →
      t.rolling_sum_ =
        (if t.size_ < t.kRingSize then sumSlots t.values_ t.size_.toNat
         else sumSlots t.values_ ringSize)) := by
  obtain ⟨te, ⟨h1, h2, h3, h4, _, h6⟩, ⟨hv, hi, hs, hsum⟩⟩ := sim_of_reachable64 (by omega) t h
  have hvalid : te.validSum = (if t.size_ < t.kRingSize then sumSlots t.values_ t.size_.toNat
      else sumSlots t.values_ ringSize) := by
    simp only [validSum, validCount, kRingSize, hv, hs]
    split <;> rfl
  have hroll : t.rolling_sum_ = wrap64
      (if t.size_ < t.kRingSize then sumSlots t.values_ t.size_.toNat
       else sumSlots t.values_ ringSize) := by
    rw [hsum, h6, hvalid]
  simp only [kRingSize] at h2 h4
  refine ⟨by rw [hs]; exact h1, by rw [hs]; exact h2, by rw [hi]; exact h3,
    by rw [hi]; exact h4, hroll, ?_⟩
  intro hr
  rw [hroll]
  exact wrap64_of_inRange _ hr

/-- Instance of amended C2: capacity 2, seeded with 5, then 7 and 9 added. -/
theorem reachable64_invariant_witness :
    1 < 2 ∧
    Reachable64 (((constructSeeded64 (fun _ => 0) 5 : TimeDeltaRingBuffer 2).Add64 7).Add64 9) ∧
    (((constructSeeded64 (fun _ => 0) 5 : TimeDeltaRingBuffer 2).Add64 7).Add64 9).rolling_sum_
      = 16 :=
  ⟨by decide, Reachable64.Add 9 (Reachable64.Add 7 (Reachable64.constructSeeded _ 5)),
    by
      have h := reachable64_invariant 2 (by decide) _
        (Reachable64.Add 9 (Reachable64.Add 7 (Reachable64.constructSeeded (fun _ => 0) 5)))
      rw [h.2.2.2.2.2 (by unfold InRange64; decide)]
      decide⟩

/-- C3 as stated fails on `int64_t` tick counts: capacity 32, `Fill(2^58)`.
The product `2^58 * 32` wraps to `-2^63`, which is not `v * capacity`, and
`GetAverage()` returns `-2^58`, not `v`. -/
theorem Fill_overflow_counterexample :
    InRange64 288230376151711744 ∧
    ((construct (fun _ => 0) : TimeDeltaRingBuffer 32).Fill64 288230376151711744).rolling_sum_
      = -9223372036854775808 ∧
    (-9223372036854775808 : Int) ≠ 288230376151711744 * 32 ∧
    ((construct (fun _ => 0) : TimeDeltaRingBuffer 32).Fill64 288230376151711744).GetAverage64
      = -288230376151711744 ∧
    (-288230376151711744 : Int) ≠ 288230376151711744 := by
  refine ⟨by unfold InRange64; decide, by decide, by decide, by decide, by decide⟩

/-- C3, amended: for every tracker state and every duration `v`, after
`Fill(v)` the count is the capacity and every slot holds `v`; provided
`v * capacity` lies in the `int64_t` range, the rolling sum is `v * capacity`
and `GetAverage()` returns exactly `v`.  Without the proviso the rolling sum is
`v * capacity` reduced modulo `2^64`. -/
theorem Fill64_spec (ringSize : Nat) (hN : 1 < ringSize) (t : TimeDeltaRingBuffer ringSize)
    (v : Int) :
    (t.Fill64 v).size_ = (ringSize : Int) ∧
    (∀ i : Int, 0 ≤ i → i < (ringSize : Int) → (t.Fill64 v).values_ i = v) ∧
    (t.Fill64 v).rolling_sum_ = wrap64 (v * (ringSize : Int)) ∧
    (InRange64 (v * (ringSize : Int)) →
      (t.Fill64 v).rolling_sum_ = v * (ringSize : Int) ∧ (t.Fill64 v).GetAverage64 = v) := by
  have hne : (ringSize : Int) ≠ 0 := by omega
  refine ⟨rfl, ?_, rfl, ?_⟩
  · intro i h0 h1
    simp only [Fill64]
    rw [fillLoop_apply]
    simp [h0, h1]
  · intro hr
    have hsum : (t.Fill64 v).rolling_sum_ = v * (ringSize : Int) := by
      simp only [Fill64, kRingSize]
      exact wrap64_of_inRange _ hr
    refine ⟨hsum, ?_⟩
    have hv := inRange_tdiv _ (ringSize : Int) hr (by omega)
    rw [Int.mul_tdiv_cancel v hne] at hv
    unfold GetAverage64
    rw [hsum]
    simp only [Fill64, kRingSize, hne, if_false]
    rw [Int.mul_tdiv_cancel v hne]
    exact wrap64_of_inRange _ hv

/-- Instance of amended C3: capacity 32, a negative duration. -/
theorem Fill64_spec_witness :
    1 < 32 ∧ InRange64 (-7 * ((32 : Nat) : Int)) ∧
    ((construct (fun _ => 1) : TimeDeltaRingBuffer 32).Fill64 (-7)).GetAverage64 = -7 :=
  ⟨by decide, by unfold InRange64; decide,
    ((Fill64_spec 32 (by decide) _ (-7)).2.2.2 (by unfold InRange64; decide)).2⟩

end TimeDeltaRingBuffer

/-! ## Lemmas on `adaptive_sleep` -/

open TimeDeltaRingBuffer

theorem coarse_loop_skip (clk : Nat → Int) (fuel : Nat) (s : LoopState)
    (h : ¬ s.rel_time > s.min_sleep_time.GetAverage) :
    coarse_loop clk (fuel + 1) s = some s := by
  simp only [coarse_loop, h, if_false]

theorem coarse_loop_step (clk : Nat → Int) (fuel : Nat) (s : LoopState)
    (h : s.rel_time > s.min_sleep_time.GetAverage) :
    coarse_loop clk (fuel + 1) s = coarse_loop clk fuel (loop_body clk s) := by
  simp only [coarse_loop, h, if_true]

/-- What a terminated run of the coarse-sleep loop did, in terms of the
samples `obs` it observed. -/
theorem coarse_loop_spec (clk : Nat → Int) (fuel : Nat) (s s1 : LoopState)
    (h : coarse_loop clk fuel s = some s1) :
    ∃ obs : List Int,
      s1.observed = s.observed ++ obs ∧
      s1.sleeps = s.sleeps + obs.length ∧
      s1.reads = s.reads + 2 * obs.length ∧
      s1.rel_time = s.rel_time - obs.sum ∧
      s1.min_sleep_time = AddAll s.min_sleep_time obs ∧
      ¬ s1.rel_time > s1.min_sleep_time.GetAverage := by
  induction fuel generalizing s with
  | zero => simp [coarse_loop] at h
  | succ fuel ih =>
    by_cases hc : s.rel_time > s.min_sleep_time.GetAverage
    · rw [coarse_loop_step clk fuel s hc] at h
      obtain ⟨obs, h1, h2, h3, h4, h5, h6⟩ := ih _ h
      refine ⟨(clk (s.reads + 1) - clk s.reads) :: obs, ?_, ?_, ?_, ?_, ?_, h6⟩
      · rw [h1]; simp [loop_body]
      · rw [h2]; simp [loop_body]; omega
      · rw [h3]; simp [loop_body]; omega
      · rw [h4]; simp [loop_body]; omega
      · rw [h5]; simp [loop_body, AddAll]
    · rw [coarse_loop_skip clk fuel s hc] at h
      cases h
      exact ⟨[], by simp, by simp, by simp, by simp, by simp [AddAll], hc⟩

/-- With a non-decreasing clock, `_Rel_time` plus the instant of the next
clock read never decreases along the coarse-sleep loop. -/
theorem coarse_loop_elapsed (clk : Nat → Int) (hmono : Monotone clk) (fuel : Nat)
    (s s1 : LoopState) (h : coarse_loop clk fuel s = some s1) :
    s.rel_time + clk s.reads ≤ s1.rel_time + clk s1.reads := by
  induction fuel generalizing s with
  | zero => simp [coarse_loop] at h
  | succ fuel ih =>
    by_cases hc : s.rel_time > s.min_sleep_time.GetAverage
    · rw [coarse_loop_step clk fuel s hc] at h
      have h1 := ih _ h
      have h2 : clk (s.reads + 1) ≤ clk (s.reads + 2) := hmono (by omega)
      simp only [loop_body] at h1
      omega
    · rw [coarse_loop_skip clk fuel s hc] at h
      cases h
      exact le_refl _

/-- What a terminated spin loop did. -/
theorem spin_loop_spec (clk : Nat → Int) (start rel_time : Int) (fuel reads yields : Nat)
    (res : Nat × Nat) (h : spin_loop clk start rel_time fuel reads yields = some res) :
    reads + 1 ≤ res.1 ∧ res.1 = reads + 1 + (res.2 - yields) ∧ yields ≤ res.2 ∧
    rel_time ≤ clk (res.1 - 1) - start := by
  induction fuel generalizing reads yields with
  | zero => simp [spin_loop] at h
  | succ fuel ih =>
    by_cases hc : clk reads - start < rel_time
    · simp only [spin_loop, hc, if_true] at h
      obtain ⟨h1, h2, h3, h4⟩ := ih _ _ h
      exact ⟨by omega, by omega, by omega, h4⟩
    · simp only [spin_loop, hc, if_false] at h
      cases h
      refine ⟨le_refl _, by simp, le_refl _, ?_⟩
      simp only [Nat.add_sub_cancel]
      omega

/-- The spin loop ends once the clock has advanced by `rel_time`. -/
theorem spin_loop_terminates (clk : Nat → Int) (start rel_time : Int) (k reads yields : Nat)
    (h : rel_time ≤ clk (reads + k) - start) :
    ∃ res : Nat × Nat, ∀ fuel : Nat, k < fuel →
      spin_loop clk start rel_time fuel reads yields = some res := by
  induction k generalizing reads yields with
  | zero =>
    refine ⟨(reads + 1, yields), ?_⟩
    intro fuel hf
    obtain ⟨f, rfl⟩ : ∃ f, fuel = f + 1 := ⟨fuel - 1, by omega⟩
    have hc : ¬ clk reads - start < rel_time := by
      simp only [Nat.add_zero] at h; omega
    simp only [spin_loop, hc, if_false]
  | succ k ih =>
    by_cases hc : clk reads - start < rel_time
    · have h1 : rel_time ≤ clk (reads + 1 + k) - start := by
        have : reads + 1 + k = reads + (k + 1) := by omega
        rw [this]; exact h
      obtain ⟨res, hres⟩ := ih (reads + 1) (yields + 1) h1
      refine ⟨res, ?_⟩
      intro fuel hf
      obtain ⟨f, rfl⟩ : ∃ f, fuel = f + 1 := ⟨fuel - 1, by omega⟩
      simp only [spin_loop, hc, if_true]
      exact hres f (by omega)
    · refine ⟨(reads + 1, yields), ?_⟩
      intro fuel hf
      obtain ⟨f, rfl⟩ : ∃ f, fuel = f + 1 := ⟨fuel - 1, by omega⟩
      simp only [spin_loop, hc, if_false]

theorem average_Clear_Add (t : TimeDeltaRingBuffer 32) (v : Int) :
    (t.Clear.Add v).GetAverage = v := by
  simp [GetAverage, TimeDeltaRingBuffer.Add, Clear, kRingSize, Int.tdiv_one]

theorem average_repair_lt (t : TimeDeltaRingBuffer 32) :
    (repair t).GetAverage < kBadSleepAverage := by
  unfold repair
  split
  · rw [average_Clear_Add]; decide
  · next h => omega

theorem repair_of_lt (t : TimeDeltaRingBuffer 32) (h : t.GetAverage < kBadSleepAverage) :
    repair t = t := by
  unfold repair
  rw [if_neg (by omega)]

theorem average_repair_of_ge (t : TimeDeltaRingBuffer 32) (h : kBadSleepAverage ≤ t.GetAverage) :
    (repair t).GetAverage = kMinSleep * 2 := by
  unfold repair
  rw [if_pos h, average_Clear_Add]

/-- The parts of a call of `adaptive_sleep` that returned. -/
theorem adaptive_sleep_spec (clk : Nat → Int) (fuel : Nat) (t : TimeDeltaRingBuffer 32)
    (T : Int) (r : SleepOutcome) (h : adaptive_sleep clk fuel t T = some r) :
    ∃ s : LoopState,
      coarse_loop clk fuel
        { min_sleep_time := t, rel_time := T, reads := 0, sleeps := 0, observed := [] } = some s ∧
      spin_loop clk (clk s.reads) s.rel_time fuel (s.reads + 1) 0 = some (r.reads, r.yields) ∧
      r.min_sleep_time = repair s.min_sleep_time ∧ r.sleeps = s.sleeps ∧
      r.observed = s.observed ∧ r.remaining = s.rel_time := by
  unfold adaptive_sleep at h
  split at h
  · cases h
  · next s hs =>
    simp only at h
    split at h
    · cases h
    · next reads yields hsp =>
      cases h
      exact ⟨s, hs, hsp, rfl, rfl, rfl, rfl⟩

theorem average_lt_of_callReachable (t : TimeDeltaRingBuffer 32) (h : CallReachable t) :
    t.GetAverage < kBadSleepAverage := by
  induction h with
  | init => decide
  | call clk fuel T r _ hr _ =>
    obtain ⟨s, _, _, h3, _⟩ := adaptive_sleep_spec clk fuel _ T r hr
    rw [h3]
    exact average_repair_lt _

theorem adaptive_sleep_of (clk : Nat → Int) (fuel : Nat) (t : TimeDeltaRingBuffer 32) (T : Int)
    (s : LoopState) (res : Nat × Nat)
    (h1 : coarse_loop clk fuel
      { min_sleep_time := t, rel_time := T, reads := 0, sleeps := 0, observed := [] } = some s)
    (h2 : spin_loop clk (clk s.reads) s.rel_time fuel (s.reads + 1) 0 = some res) :
    adaptive_sleep clk fuel t T = some
      { min_sleep_time := repair s.min_sleep_time
        sleeps := s.sleeps
        observed := s.observed
        remaining := s.rel_time
        yields := res.2
        reads := res.1 } := by
  unfold adaptive_sleep
  rw [h1]
  simp only
  rw [h2]

/-- C4: with a non-decreasing clock, a call of `adaptive_sleep` that returns
did not return early: the instant of its last clock read minus the instant of
its first clock read is at least the request `T`; and the observed coarse-sleep
durations plus the time elapsed in the spin phase add up to at least `T`. -/
theorem adaptive_sleep_never_early (clk : Nat → Int) (hmono : Monotone clk) (fuel : Nat)
    (t : TimeDeltaRingBuffer 32) (T : Int) (r : SleepOutcome)
    (h : adaptive_sleep clk fuel t T = some r) :
    T ≤ lastRead clk r - firstRead clk ∧
    T ≤ r.observed.sum + (lastRead clk r - clk (2 * r.sleeps)) := by
  obtain ⟨s, h1, h2, _, h4, h5, _⟩ := adaptive_sleep_spec clk fuel t T r h
  have hel := coarse_loop_elapsed clk hmono fuel _ s h1
  obtain ⟨obs, o1, o2, o3, o4, _, _⟩ := coarse_loop_spec clk fuel _ s h1
  obtain ⟨_, _, _, hsp⟩ := spin_loop_spec clk _ _ fuel _ _ _ h2
  simp only at hel o1 o2 o3 o4 hsp
  simp only [List.nil_append] at o1
  simp only [Nat.zero_add] at o2 o3
  have hreads : clk (2 * r.sleeps) = clk s.reads := by rw [h4, o2, o3]
  constructor
  · simp only [lastRead, firstRead]; omega
  · simp only [lastRead]
    rw [hreads, h5, o1]
    omega

/-- Instance of C4: the first call on a fresh tracker, 5 ms requested, the
clock advancing 3 ms per read. -/
theorem adaptive_sleep_never_early_witness :
    Monotone clock3ms ∧
    ∃ r : SleepOutcome, adaptive_sleep clock3ms 3 min_sleep_time_init 5000000 = some r ∧
      (5000000 : Int) ≤ lastRead clock3ms r - firstRead clock3ms := by
  have hmono : Monotone clock3ms := by
    intro a b hab
    simp only [clock3ms]
    have : (a : Int) ≤ (b : Int) := by exact_mod_cast hab
    omega
  have hsome : (adaptive_sleep clock3ms 3 min_sleep_time_init 5000000).isSome = true := by
    decide
  obtain ⟨r, hr⟩ := Option.isSome_iff_exists.mp hsome
  exact ⟨hmono, r, hr,
    (adaptive_sleep_never_early clock3ms hmono 3 min_sleep_time_init 5000000 r hr).1⟩

/-- C9: whenever a call of `adaptive_sleep` returns, whatever the tracker at
entry, the request and the observed coarse-sleep durations, the average of the
tracker is strictly below `kBadSleepAverage`: either the average at the exit of
the loop (entry tracker plus the observed samples) was already below it and
the tracker is left as it was there, or the tracker was cleared and reseeded
and its average is exactly `2 * kMinSleep`. -/
theorem average_below_bad_after_call (clk : Nat → Int) (fuel : Nat)
    (t : TimeDeltaRingBuffer 32) (T : Int) (r : SleepOutcome)
    (h : adaptive_sleep clk fuel t T = some r) :
    r.min_sleep_time.GetAverage < kBadSleepAverage ∧
    (((AddAll t r.observed).GetAverage < kBadSleepAverage ∧
        r.min_sleep_time = AddAll t r.observed) ∨
     (kBadSleepAverage ≤ (AddAll t r.observed).GetAverage ∧
        r.min_sleep_time = (AddAll t r.observed).Clear.Add (kMinSleep * 2) ∧
        r.min_sleep_time.GetAverage = kMinSleep * 2)) := by
  obtain ⟨s, h1, _, h3, _, h5, _⟩ := adaptive_sleep_spec clk fuel t T r h
  obtain ⟨obs, o1, _, _, _, o5, _⟩ := coarse_loop_spec clk fuel _ s h1
  simp only [List.nil_append] at o1
  simp only at o5
  rw [h5, o1, ← o5, h3]
  refine ⟨average_repair_lt _, ?_⟩
  by_cases hb : s.min_sleep_time.GetAverage < kBadSleepAverage
  · exact Or.inl ⟨hb, repair_of_lt _ hb⟩
  · have hge : kBadSleepAverage ≤ s.min_sleep_time.GetAverage := by omega
    refine Or.inr ⟨hge, ?_, average_repair_of_ge _ hge⟩
    unfold repair
    rw [if_pos hge]

/-- Instance of C9: the first call on a fresh tracker, 5 ms requested, the
clock advancing 3 ms per read. -/
theorem average_below_bad_after_call_witness :
    ∃ r : SleepOutcome, adaptive_sleep clock3ms 3 min_sleep_time_init 5000000 = some r ∧
      r.min_sleep_time.GetAverage < kBadSleepAverage := by
  have hsome : (adaptive_sleep clock3ms 3 min_sleep_time_init 5000000).isSome = true := by
    decide
  obtain ⟨r, hr⟩ := Option.isSome_iff_exists.mp hsome
  exact ⟨r, hr, (average_below_bad_after_call clock3ms 3 min_sleep_time_init 5000000 r hr).1⟩

/-- C5 as stated fails: a tracker holding the single sample 7 ms has average
7 ms, above `kBadSleepAverage`; a request of 7 ms + 1 ns makes the loop run
once, the observed 3 ms brings the average to 5 ms, the loop exits, no reset
happens, and the average after the call is 5 ms, not `2 * kMinSleep`. -/
theorem reseed_skipped_counterexample :
    kBadSleepAverage <
        (constructSeeded (fun _ => 0) 7000000 : TimeDeltaRingBuffer 32).GetAverage ∧
    (0 : Int) ≤ 7000001 ∧
    (adaptive_sleep clock3ms 3 (constructSeeded (fun _ => 0) 7000000) 7000001).map
        (fun r => r.min_sleep_time.GetAverage) = some 5000000 ∧
    (5000000 : Int) ≠ kMinSleep * 2 := by
  refine ⟨by decide, by decide, by decide, by decide⟩

/-- C5, amended: for every tracker state and every request `T`, when a call of
`adaptive_sleep` returns and the average of the tracker at the exit of the
coarse-sleep loop (the entry tracker plus the samples observed during the
call) is at least `kBadSleepAverage`, the tracker is Cleared and reseeded with
the single sample `2 * kMinSleep`, and its average after the call is
`2 * kMinSleep`; when that average is below `kBadSleepAverage` the tracker is
left as the loop made it.  In particular, when the average at entry is at
least `kBadSleepAverage` and the request `T` is not greater than it, no coarse
sleep happens, the call returns once the clock has advanced by `T`, and the
entry tracker is Cleared and reseeded with the single sample `2 * kMinSleep`. -/
theorem divergence_repair (clk : Nat → Int) (t : TimeDeltaRingBuffer 32) (T : Int) :
    (∀ (fuel : Nat) (r : SleepOutcome), adaptive_sleep clk fuel t T = some r →
      (kBadSleepAverage ≤ (AddAll t r.observed).GetAverage →
        r.min_sleep_time = (AddAll t r.observed).Clear.Add (kMinSleep * 2) ∧
        r.min_sleep_time.size_ = 1 ∧
        r.min_sleep_time.values_ 0 = kMinSleep * 2 ∧
        r.min_sleep_time.rolling_sum_ = kMinSleep * 2 ∧
        r.min_sleep_time.GetAverage = kMinSleep * 2) ∧
      ((AddAll t r.observed).GetAverage < kBadSleepAverage →
        r.min_sleep_time = AddAll t r.observed)) ∧
    (kBadSleepAverage ≤ t.GetAverage → T ≤ t.GetAverage →
      ∀ k : Nat, T ≤ clk (k + 1) - clk 0 →
        ∃ r : SleepOutcome, (∀ fuel : Nat, k < fuel → adaptive_sleep clk fuel t T = some r) ∧
          r.sleeps = 0 ∧ r.observed = [] ∧
          r.min_sleep_time = t.Clear.Add (kMinSleep * 2) ∧
          r.min_sleep_time.size_ = 1 ∧
          r.min_sleep_time.GetAverage = kMinSleep * 2) := by
  constructor
  · intro fuel r h
    obtain ⟨s, h1, _, h3, _, h5, _⟩ := adaptive_sleep_spec clk fuel t T r h
    obtain ⟨obs, o1, _, _, _, o5, _⟩ := coarse_loop_spec clk fuel _ s h1
    simp only [List.nil_append] at o1
    simp only at o5
    rw [h5, o1, ← o5, h3]
    constructor
    · intro hge
      have hrep : repair s.min_sleep_time = s.min_sleep_time.Clear.Add (kMinSleep * 2) := by
        unfold repair
        rw [if_pos hge]
      rw [hrep]
      exact ⟨rfl, rfl, rfl, by simp [TimeDeltaRingBuffer.Add, Clear, kRingSize],
        average_Clear_Add _ _⟩
    · intro hlt
      exact repair_of_lt _ hlt
  · intro hbad hT k hk
    have hk2 : T ≤ clk (0 + 1 + k) - clk 0 := by
      have : 0 + 1 + k = k + 1 := by omega
      rw [this]; exact hk
    obtain ⟨res, hres⟩ := spin_loop_terminates clk (clk 0) T k (0 + 1) 0 hk2
    have hrep : repair t = t.Clear.Add (kMinSleep * 2) := by
      unfold repair
      rw [if_pos hbad]
    refine ⟨{ min_sleep_time := repair t, sleeps := 0, observed := [], remaining := T,
              yields := res.2, reads := res.1 }, ?_, rfl, rfl, hrep, ?_, ?_⟩
    · intro fuel hf
      obtain ⟨f, rfl⟩ : ∃ f, fuel = f + 1 := ⟨fuel - 1, by omega⟩
      have hskip := coarse_loop_skip clk f
        { min_sleep_time := t, rel_time := T, reads := 0, sleeps := 0, observed := [] }
        (by simp only; omega)
      exact adaptive_sleep_of clk (f + 1) t T _ res hskip (hres (f + 1) hf)
    · simp only [hrep]; rfl
    · simp only [hrep]; exact average_Clear_Add _ _

/-- Instance of amended C5: a tracker holding the single sample 7 ms, 1 ms
requested, the clock advancing 3 ms per read. -/
theorem divergence_repair_witness :
    kBadSleepAverage ≤
        (constructSeeded (fun _ => 0) 7000000 : TimeDeltaRingBuffer 32).GetAverage ∧
    (1000000 : Int) ≤
        (constructSeeded (fun _ => 0) 7000000 : TimeDeltaRingBuffer 32).GetAverage ∧
    (1000000 : Int) ≤ clock3ms (0 + 1) - clock3ms 0 ∧
    ∃ r : SleepOutcome,
      (∀ fuel : Nat, 0 < fuel →
        adaptive_sleep clock3ms fuel (constructSeeded (fun _ => 0) 7000000) 1000000 = some r) ∧
      r.sleeps = 0 ∧ r.observed = [] ∧
      r.min_sleep_time
        = (constructSeeded (fun _ => 0) 7000000 : TimeDeltaRingBuffer 32).Clear.Add
            (kMinSleep * 2) ∧
      r.min_sleep_time.size_ = 1 ∧
      r.min_sleep_time.GetAverage = kMinSleep * 2 :=
  ⟨by decide, by decide, by decide,
    (divergence_repair clock3ms (constructSeeded (fun _ => 0) 7000000) 1000000).2
      (by decide) (by decide) 0 (by decide)⟩

/-- C6 as stated fails: a tracker holding the single sample 7 ms has the
non-negative average 7 ms, and the request 0 is not greater than it.  The call
makes no coarse sleep, but the tracker is Cleared and the sample
`2 * kMinSleep` is added: slot 0, which held 7 ms, holds 4 ms after the call. -/
theorem reseed_below_average_counterexample :
    (0 : Int) ≤ (constructSeeded (fun _ => 0) 7000000 : TimeDeltaRingBuffer 32).GetAverage ∧
    (constructSeeded (fun _ => 0) 7000000 : TimeDeltaRingBuffer 32).values_ 0 = 7000000 ∧
    (constructSeeded (fun _ => 0) 7000000 : TimeDeltaRingBuffer 32).rolling_sum_ = 7000000 ∧
    (adaptive_sleep clock3ms 1 (constructSeeded (fun _ => 0) 7000000) 0).map
        (fun r => (r.sleeps, r.min_sleep_time.size_, r.min_sleep_time.values_ 0,
          r.min_sleep_time.rolling_sum_)) = some (0, 1, 4000000, 4000000) ∧
    (4000000 : Int) ≠ 7000000 := by
  refine ⟨by decide, by decide, by decide, by decide, by decide⟩

/-- C6, amended: a request `T` not greater than the average of the tracker is
never delegated to the OS.  The loop exits at its first test; a call that
returns made no coarse sleep and its loop added no sample; the tracker is left
unchanged when its average at entry is below `kBadSleepAverage` (so at every
call that follows the static initialisation and earlier calls one after the
other, the first call, on the seed `2 * kMinSleep`, included), and it is
Cleared and reseeded with the single sample `2 * kMinSleep` when its average at
entry is at least `kBadSleepAverage`.  Such a call returns once the clock has
advanced by `T`; for `T = 0` and a non-decreasing clock the spin condition is
false at its first evaluation: the call returns after two clock reads and no
yield. -/
theorem no_coarse_sleep_below_average (clk : Nat → Int) (t : TimeDeltaRingBuffer 32) (T : Int)
    (hT : T ≤ t.GetAverage) :
    (∀ fuel : Nat, coarse_loop clk (fuel + 1)
        { min_sleep_time := t, rel_time := T, reads := 0, sleeps := 0, observed := [] }
      = some { min_sleep_time := t, rel_time := T, reads := 0, sleeps := 0, observed := [] }) ∧
    (∀ (fuel : Nat) (r : SleepOutcome), adaptive_sleep clk fuel t T = some r →
      r.sleeps = 0 ∧ r.observed = [] ∧
      r.min_sleep_time
        = (if kBadSleepAverage ≤ t.GetAverage then t.Clear.Add (kMinSleep * 2) else t) ∧
      (t.GetAverage < kBadSleepAverage → r.min_sleep_time = t) ∧
      (CallReachable t → r.min_sleep_time = t)) ∧
    (∀ k : Nat, T ≤ clk (k + 1) - clk 0 →
      ∃ r : SleepOutcome, ∀ fuel : Nat, k < fuel → adaptive_sleep clk fuel t T = some r) ∧
    (T = 0 → Monotone clk →
      ∃ r : SleepOutcome, (∀ fuel : Nat, adaptive_sleep clk (fuel + 1) t T = some r) ∧
        r.sleeps = 0 ∧ r.yields = 0 ∧ r.reads = 2) ∧
    min_sleep_time_init.GetAverage = kMinSleep * 2 ∧ CallReachable min_sleep_time_init := by
  have hskip : ∀ fuel : Nat, coarse_loop clk (fuel + 1)
        { min_sleep_time := t, rel_time := T, reads := 0, sleeps := 0, observed := [] }
      = some { min_sleep_time := t, rel_time := T, reads := 0, sleeps := 0, observed := [] } :=
    fun fuel => coarse_loop_skip clk fuel _ (by simp only; omega)
  refine ⟨hskip, ?_, ?_, ?_, by decide, CallReachable.init⟩
  · intro fuel r h
    obtain ⟨s, h1, _, h3, h4, h5, _⟩ := adaptive_sleep_spec clk fuel t T r h
    obtain ⟨f, rfl⟩ : ∃ f, fuel = f + 1 := by
      cases fuel with
      | zero => simp [coarse_loop] at h1
      | succ f => exact ⟨f, rfl⟩
    rw [hskip f] at h1
    cases h1
    refine ⟨h4, h5, ?_, ?_, ?_⟩
    · rw [h3]; rfl
    · intro hlt; rw [h3]; exact repair_of_lt t hlt
    · intro hreach; rw [h3]; exact repair_of_lt t (average_lt_of_callReachable t hreach)
  · intro k hk
    have hk2 : T ≤ clk (0 + 1 + k) - clk 0 := by
      have : 0 + 1 + k = k + 1 := by omega
      rw [this]; exact hk
    obtain ⟨res, hres⟩ := spin_loop_terminates clk (clk 0) T k (0 + 1) 0 hk2
    refine ⟨{ min_sleep_time := repair t, sleeps := 0, observed := [], remaining := T,
              yields := res.2, reads := res.1 }, ?_⟩
    intro fuel hf
    obtain ⟨f, rfl⟩ : ∃ f, fuel = f + 1 := ⟨fuel - 1, by omega⟩
    exact adaptive_sleep_of clk (f + 1) t T _ res (hskip f) (hres (f + 1) hf)
  · intro h0 hmono
    subst h0
    refine ⟨{ min_sleep_time := repair t, sleeps := 0, observed := [], remaining := 0,
              yields := 0, reads := 2 }, ?_, rfl, rfl, rfl⟩
    intro fuel
    have h01 : clk 0 ≤ clk 1 := hmono (by omega)
    have hspin : spin_loop clk (clk 0) 0 (fuel + 1) (0 + 1) 0 = some (2, 0) := by
      have hc : ¬ clk (0 + 1) - clk 0 < 0 := by simp only [Nat.zero_add]; omega
      simp only [spin_loop, hc, if_false]
    exact adaptive_sleep_of clk (fuel + 1) t 0 _ (2, 0) (hskip fuel) hspin

/-- Instance of amended C6: the first call of a program, with a request of 0;
the tracker is left as it was. -/
theorem no_coarse_sleep_below_average_witness :
    (0 : Int) ≤ min_sleep_time_init.GetAverage ∧ Monotone clock3ms ∧
    (∃ r : SleepOutcome, (∀ fuel : Nat, adaptive_sleep clock3ms (fuel + 1) min_sleep_time_init 0
        = some r) ∧ r.sleeps = 0 ∧ r.yields = 0 ∧ r.reads = 2) ∧
    ∃ r : SleepOutcome, adaptive_sleep clock3ms 1 min_sleep_time_init 0 = some r ∧
      r.sleeps = 0 ∧ r.observed = [] ∧ r.min_sleep_time = min_sleep_time_init := by
  have hmono : Monotone clock3ms := by
    intro a b hab
    simp only [clock3ms]
    have : (a : Int) ≤ (b : Int) := by exact_mod_cast hab
    omega
  have hthm := no_coarse_sleep_below_average clock3ms min_sleep_time_init 0 (by decide)
  obtain ⟨r, hr, _⟩ := hthm.2.2.2.1 rfl hmono
  have hcall := hthm.2.1 1 r (hr 0)
  exact ⟨by decide, hmono, hthm.2.2.2.1 rfl hmono, r, hr 0, hcall.1, hcall.2.1,
    hcall.2.2.2.1 (by decide)⟩

namespace TimeDeltaRingBuffer

variable {ringSize : Nat}

theorem nonneg_Add (t : TimeDeltaRingBuffer ringSize) (value : Int) (h : Inv t)
    (hs : ∀ i : Nat, i < t.validCount → 0 ≤ t.values_ (i : Int)) (hv : 0 ≤ value) :
    ∀ i : Nat, i < (t.Add value).validCount → 0 ≤ (t.Add value).values_ (i : Int) := by
  obtain ⟨h1, h2, h3, h4, h5, _⟩ := h
  simp only [kRingSize] at h2 h4 h5
  intro i hi
  by_cases hfull : t.size_ = (ringSize : Int)
  · simp only [TimeDeltaRingBuffer.Add, validCount, kRingSize, hfull, if_true,
      lt_self_iff_false, if_false] at hi ⊢
    by_cases hidx : (i : Int) = t.next_index_
    · rw [hidx, Function.update_same]; exact hv
    · rw [Function.update_noteq hidx]
      apply hs
      simp only [validCount, kRingSize, hfull, lt_self_iff_false, if_false]
      exact hi
  · have hlt : t.size_ < (ringSize : Int) := by omega
    have hnext := h5 hlt
    simp only [TimeDeltaRingBuffer.Add, validCount, kRingSize, hfull, if_false] at hi ⊢
    by_cases hidx : (i : Int) = t.next_index_
    · rw [hidx, Function.update_same]; exact hv
    · rw [Function.update_noteq hidx]
      apply hs
      simp only [validCount, kRingSize, hlt, if_true]
      split at hi <;> omega

theorem average_nonneg (t : TimeDeltaRingBuffer ringSize) (h : Inv t)
    (hs : ∀ i : Nat, i < t.validCount → 0 ≤ t.values_ (i : Int)) : 0 ≤ t.GetAverage := by
  unfold GetAverage
  split
  · exact le_refl _
  · apply Int.tdiv_nonneg
    · rw [h.sum_eq]; exact sumSlots_nonneg _ _ hs
    · exact h.size_nonneg

end TimeDeltaRingBuffer

/-- The coarse-sleep loop ends within `rel_time` iterations when the samples
are non-negative and every observed duration is at least one tick. -/
theorem coarse_loop_terminates (clk : Nat → Int) (n : Nat) (s : LoopState)
    (hn : s.rel_time.toNat ≤ n) (hinv : Inv s.min_sleep_time)
    (hs : ∀ i : Nat, i < s.min_sleep_time.validCount → 0 ≤ s.min_sleep_time.values_ (i : Int))
    (hobs : ∀ j : Nat, 1 ≤ clk (s.reads + 2 * j + 1) - clk (s.reads + 2 * j)) :
    ∃ s1 : LoopState, (∀ fuel : Nat, n < fuel → coarse_loop clk fuel s = some s1) ∧
      s1.sleeps ≤ s.sleeps + s.rel_time.toNat := by
  induction n generalizing s with
  | zero =>
    have havg := average_nonneg _ hinv hs
    have hc : ¬ s.rel_time > s.min_sleep_time.GetAverage := by omega
    refine ⟨s, ?_, by omega⟩
    intro fuel hf
    obtain ⟨f, rfl⟩ : ∃ f, fuel = f + 1 := ⟨fuel - 1, by omega⟩
    exact coarse_loop_skip clk f s hc
  | succ n ih =>
    by_cases hc : s.rel_time > s.min_sleep_time.GetAverage
    · have havg := average_nonneg _ hinv hs
      have hob := hobs 0
      simp only [Nat.mul_zero, Nat.add_zero] at hob
      have hinv1 : Inv (loop_body clk s).min_sleep_time := inv_Add _ _ hinv
      have hs1 : ∀ i : Nat, i < (loop_body clk s).min_sleep_time.validCount →
          0 ≤ (loop_body clk s).min_sleep_time.values_ (i : Int) :=
        nonneg_Add _ _ hinv hs (by omega)
      have hobs1 : ∀ j : Nat, 1 ≤ clk ((loop_body clk s).reads + 2 * j + 1)
          - clk ((loop_body clk s).reads + 2 * j) := by
        intro j
        have := hobs (j + 1)
        have e : s.reads + 2 * (j + 1) = s.reads + 2 + 2 * j := by omega
        rw [e] at this
        exact this
      have hrel : (loop_body clk s).rel_time = s.rel_time - (clk (s.reads + 1) - clk s.reads) :=
        rfl
      have hsl : (loop_body clk s).sleeps = s.sleeps + 1 := rfl
      obtain ⟨s1, h1, h2⟩ := ih (loop_body clk s) (by omega) hinv1 hs1 hobs1
      refine ⟨s1, ?_, by omega⟩
      intro fuel hf
      obtain ⟨f, rfl⟩ : ∃ f, fuel = f + 1 := ⟨fuel - 1, by omega⟩
      rw [coarse_loop_step clk f s hc]
      exact h1 f (by omega)
    · refine ⟨s, ?_, by omega⟩
      intro fuel hf
      obtain ⟨f, rfl⟩ : ∃ f, fuel = f + 1 := ⟨fuel - 1, by omega⟩
      exact coarse_loop_skip clk f s hc

theorem clock_advances (clk : Nat → Int) (hstrict : StrictMono clk) (a m : Nat) :
    clk a + (m : Int) ≤ clk (a + m) := by
  induction m with
  | zero => simp
  | succ m ih =>
    have h : clk (a + m) < clk (a + (m + 1)) := hstrict (by omega)
    push_cast
    omega

/-- A call of `adaptive_sleep` returns when the clock strictly increases from
one read to the next and the tracker at entry holds non-negative samples. -/
theorem adaptive_sleep_returns (clk : Nat → Int) (hstrict : StrictMono clk)
    (t : TimeDeltaRingBuffer 32) (T : Int) (hreach : Reachable t)
    (hs : ∀ i : Nat, i < t.validCount → 0 ≤ t.values_ (i : Int)) :
    ∃ (n : Nat) (r : SleepOutcome), ∀ fuel : Nat, n < fuel →
      adaptive_sleep clk fuel t T = some r := by
  have hobs : ∀ j : Nat, 1 ≤ clk (2 * j + 1) - clk (2 * j) := by
    intro j
    have h : clk (2 * j) < clk (2 * j + 1) := hstrict (by omega)
    omega
  have hinv : Inv t := inv_of_reachable (by decide) t hreach
  obtain ⟨s, h1, _⟩ := coarse_loop_terminates clk T.toNat
    { min_sleep_time := t, rel_time := T, reads := 0, sleeps := 0, observed := [] }
    (le_refl _) hinv hs (by intro j; simpa using hobs j)
  have hadv := clock_advances clk hstrict s.reads (1 + s.rel_time.toNat)
  have hk : s.rel_time ≤ clk (s.reads + 1 + s.rel_time.toNat) - clk s.reads := by
    have e : s.reads + (1 + s.rel_time.toNat) = s.reads + 1 + s.rel_time.toNat := by omega
    rw [e] at hadv
    push_cast at hadv
    omega
  obtain ⟨res, hres⟩ :=
    spin_loop_terminates clk (clk s.reads) s.rel_time s.rel_time.toNat (s.reads + 1) 0 hk
  refine ⟨max T.toNat s.rel_time.toNat,
    { min_sleep_time := repair s.min_sleep_time, sleeps := s.sleeps, observed := s.observed,
      remaining := s.rel_time, yields := res.2, reads := res.1 }, ?_⟩
  intro fuel hf
  exact adaptive_sleep_of clk fuel t T s res (h1 fuel (by omega)) (hres fuel (by omega))

/-- C7, evaluated on the code: thread 1 calls `deadline_sleep(5 ms)` and
observes one coarse sleep of 3 ms; the tracker that the first call of thread 2
then works on has average 3.5 ms instead of the seed `2 * kMinSleep`, and a
request of 3.8 ms on thread 2, below the seed, is sent to the OS once. -/
theorem static_tracker_shared_between_threads :
    (deadline_sleep 1 clock3ms 3 { min_sleep_time := none } 5000000).map
        (fun x => x.1.tracker.GetAverage) = some 3500000 ∧
    (3500000 : Int) ≠ kMinSleep * 2 ∧
    (3800000 : Int) ≤ kMinSleep * 2 ∧
    (two_threads clock3ms 3 5000000 3800000).map (fun x => x.2.sleeps) = some 1 ∧
    (deadline_sleep 2 clock3ms 3 { min_sleep_time := none } 3800000).map
        (fun x => x.2.sleeps) = some 0 := by
  refine ⟨by decide, by decide, by decide, by decide, by decide⟩

/-! ## Lemmas on `sleep_nanosleep` -/

theorem map_range_succ (f : Nat → timespec) (k : Nat) :
    (List.range k).map f ++ [f k] = (List.range (k + 1)).map f := by
  rw [List.range_succ, List.map_append]
  rfl

/-- The retry loop, started at call `k` on the request chain, returns exactly
at the first call `j ≥ k` that the OS answers with 0. -/
theorem sleep_nanosleep_loop_spec (os : Nat → timespec → Int × timespec) (ts0 : timespec)
    (fuel k : Nat) (out : List timespec) :
    sleep_nanosleep_loop os fuel k (requestSeq os ts0 k)
        ((List.range k).map (requestSeq os ts0)) = some out ↔
      ∃ j : Nat, k ≤ j ∧ j < k + fuel ∧ (os j (requestSeq os ts0 j)).1 = 0 ∧
        (∀ i : Nat, k ≤ i → i < j → (os i (requestSeq os ts0 i)).1 ≠ 0) ∧
        out = (List.range (j + 1)).map (requestSeq os ts0) := by
  induction fuel generalizing k with
  | zero =>
    simp only [sleep_nanosleep_loop]
    constructor
    · intro h; cases h
    · rintro ⟨j, h1, h2, _⟩; omega
  | succ fuel ih =>
    by_cases hrv : (os k (requestSeq os ts0 k)).1 = 0
    · simp only [sleep_nanosleep_loop, hrv, ne_eq, not_true_eq_false, if_false]
      rw [map_range_succ]
      constructor
      · intro h
        cases h
        exact ⟨k, le_refl _, by omega, hrv, fun i h1 h2 => by omega, rfl⟩
      · rintro ⟨j, h1, _, _, h4, h5⟩
        have hjk : j = k := by
          by_contra hne
          exact h4 k (le_refl _) (by omega) hrv
        subst hjk
        rw [h5]
    · simp only [sleep_nanosleep_loop, hrv, ne_eq, not_false_eq_true, if_true]
      rw [map_range_succ]
      have hnext : (os k (requestSeq os ts0 k)).2 = requestSeq os ts0 (k + 1) := rfl
      rw [hnext, ih (k + 1)]
      constructor
      · rintro ⟨j, h1, h2, h3, h4, h5⟩
        refine ⟨j, by omega, by omega, h3, ?_, h5⟩
        intro i hi1 hi2
        by_cases hik : i = k
        · subst hik; exact hrv
        · exact h4 i (by omega) hi2
      · rintro ⟨j, h1, h2, h3, h4, h5⟩
        have hjk : j ≠ k := by
          intro hjk; subst hjk; exact hrv h3
        exact ⟨j, by omega, by omega, h3, fun i hi1 hi2 => h4 i (by omega) hi2, h5⟩

/-- C8: for a non-negative duration `d`, `sleep_nanosleep(d)` first requests
`tv_sec = d / 10^9`, `tv_nsec = d % 10^9`, so that
`tv_sec * 10^9 + tv_nsec = d` and `0 ≤ tv_nsec < 10^9`; with the OS call
returning a code and a remainder, the call made after an interrupted one
requests exactly the remainder that one reported (`requestSeq`), and the
function returns exactly at the first call that returns 0, with the list of
the requests made up to it; it returns if and only if some call returns 0. -/
theorem sleep_nanosleep_spec (os : Nat → timespec → Int × timespec) (d : Int) (hd : 0 ≤ d) :
    ((first_timespec d).tv_sec = Int.tdiv d 1000000000 ∧
      (first_timespec d).tv_nsec = Int.tmod d 1000000000 ∧
      (first_timespec d).tv_sec * 1000000000 + (first_timespec d).tv_nsec = d ∧
      0 ≤ (first_timespec d).tv_nsec ∧ (first_timespec d).tv_nsec < 1000000000) ∧
    requestSeq os (first_timespec d) 0 = first_timespec d ∧
    (∀ k : Nat, requestSeq os (first_timespec d) (k + 1)
      = (os k (requestSeq os (first_timespec d) k)).2) ∧
    (∀ (fuel : Nat) (out : List timespec),
      sleep_nanosleep os fuel d = some out ↔
        ∃ j : Nat, j < fuel ∧ (os j (requestSeq os (first_timespec d) j)).1 = 0 ∧
          (∀ i : Nat, i < j → (os i (requestSeq os (first_timespec d) i)).1 ≠ 0) ∧
          out = (List.range (j + 1)).map (requestSeq os (first_timespec d))) ∧
    ((∃ (fuel : Nat) (out : List timespec), sleep_nanosleep os fuel d = some out) ↔
      ∃ j : Nat, (os j (requestSeq os (first_timespec d) j)).1 = 0) := by
  have hspec : ∀ (fuel : Nat) (out : List timespec),
      sleep_nanosleep os fuel d = some out ↔
        ∃ j : Nat, j < fuel ∧ (os j (requestSeq os (first_timespec d) j)).1 = 0 ∧
          (∀ i : Nat, i < j → (os i (requestSeq os (first_timespec d) i)).1 ≠ 0) ∧
          out = (List.range (j + 1)).map (requestSeq os (first_timespec d)) := by
    intro fuel out
    have h := sleep_nanosleep_loop_spec os (first_timespec d) fuel 0 out
    simp only [List.range_zero, List.map_nil, requestSeq, Nat.zero_add, Nat.zero_le,
      true_and, forall_const] at h
    exact h
  refine ⟨⟨rfl, rfl, ?_, ?_, ?_⟩, rfl, fun _ => rfl, hspec, ?_⟩
  · simp only [first_timespec, period_den]
    have := Int.tdiv_add_tmod d 1000000000
    omega
  · simp only [first_timespec, period_den]
    exact Int.tmod_nonneg _ hd
  · simp only [first_timespec, period_den]
    exact Int.tmod_lt_of_pos d (by decide)
  · constructor
    · rintro ⟨fuel, out, h⟩
      obtain ⟨j, _, h2, _⟩ := (hspec fuel out).mp h
      exact ⟨j, h2⟩
    · rintro ⟨j, hj⟩
      -- the first call that returns 0
      have hex : ∃ j : Nat, (os j (requestSeq os (first_timespec d) j)).1 = 0 := ⟨j, hj⟩
      classical
      let j0 := Nat.find hex
      have hj0 : (os j0 (requestSeq os (first_timespec d) j0)).1 = 0 := Nat.find_spec hex
      refine ⟨j0 + 1, (List.range (j0 + 1)).map (requestSeq os (first_timespec d)), ?_⟩
      rw [hspec]
      exact ⟨j0, by omega, hj0, fun i hi => Nat.find_min hex hi, rfl⟩

/-- Instance of C8: 2.5 s requested, the first call interrupted with 1 s left. -/
theorem sleep_nanosleep_spec_witness :
    (0 : Int) ≤ 2500000000 ∧
    sleep_nanosleep interrupted_once 5 2500000000
      = some [{ tv_sec := 2, tv_nsec := 500000000 }, { tv_sec := 1, tv_nsec := 0 }] ∧
    ∃ j : Nat, (interrupted_once j
      (requestSeq interrupted_once (first_timespec 2500000000) j)).1 = 0 :=
  ⟨by decide, by decide,
    (sleep_nanosleep_spec interrupted_once 2500000000 (by decide)).2.2.2.2.mp
      ⟨5, _, (by decide : sleep_nanosleep interrupted_once 5 2500000000
        = some [{ tv_sec := 2, tv_nsec := 500000000 }, { tv_sec := 1, tv_nsec := 0 }])⟩⟩

end timers
